import Mathlib

/-!
Verification of the node-server repository's framing, routing, session and
room-management layers, shallowly embedded in Lean from the JavaScript source.

Each section names the source file (and, for files whose names were lost,
the `src/unnamed/part_NNN` blob) that the definitions are translated from.
-/

namespace NodeServer

/-! ## MessageBuffer (src/message/messageBuffer.js)

The buffer accumulates raw bytes (`appendBuffer`) and `split()` repeatedly
searches `this.buffer.indexOf(this.eof)`, emitting the slice before each
occurrence and dropping the consumed region including the delimiter.
Bytes are modelled as `Nat`, the buffer as `List Byte`, and the JavaScript
`null` initial buffer as `Option (List Byte)` (`appendBuffer` replaces a
null buffer by the chunk, otherwise concatenates). -/

abbrev Byte := Nat

/-- `leadsWith p s = true` when `p` occurs at the very start of `s`:
the block comparison underlying JavaScript `Buffer.indexOf`. -/
def leadsWith : List Byte → List Byte → Bool
  | [], _ => true
  | _ :: _, [] => false
  | a :: as, b :: bs => a == b && leadsWith as bs

/-- Index of the first occurrence of `eof` as a contiguous block of `s`,
as computed by `this.buffer.indexOf(this.eof)` in `MessageBuffer.split`.
(For the empty search value JavaScript returns `0` even on an empty buffer;
`split` then loops forever, so every theorem below assumes `eof ≠ []`.) -/
def firstOcc (eof : List Byte) : List Byte → Option Nat
  | [] => none
  | a :: s => if leadsWith eof (a :: s) then some 0 else (firstOcc eof s).map (· + 1)

theorem leadsWith_length {p s : List Byte} (h : leadsWith p s = true) :
    p.length ≤ s.length := by
  induction p generalizing s with
  | nil => exact Nat.zero_le _
  | cons a as ih =>
    cases s with
    | nil => simp [leadsWith] at h
    | cons b bs =>
      simp only [leadsWith, Bool.and_eq_true] at h
      simpa [List.length_cons, Nat.succ_le_succ_iff] using ih h.2

theorem leadsWith_append {p s : List Byte} (t : List Byte)
    (h : leadsWith p s = true) : leadsWith p (s ++ t) = true := by
  induction p generalizing s with
  | nil => simp [leadsWith]
  | cons a as ih =>
    cases s with
    | nil => simp [leadsWith] at h
    | cons b bs =>
      simp only [leadsWith, Bool.and_eq_true] at h
      simpa [leadsWith, h.1] using ih h.2

theorem leadsWith_append_left {p s : List Byte} (t : List Byte)
    (hle : p.length ≤ s.length) : leadsWith p (s ++ t) = leadsWith p s := by
  induction p generalizing s with
  | nil => simp [leadsWith]
  | cons a as ih =>
    cases s with
    | nil => simp at hle
    | cons b bs =>
      simp only [List.length_cons, Nat.succ_le_succ_iff] at hle
      simp [leadsWith, ih hle]

theorem leadsWith_decomp {p s : List Byte} (h : leadsWith p s = true) :
    s = p ++ s.drop p.length := by
  induction p generalizing s with
  | nil => simp
  | cons a as ih =>
    cases s with
    | nil => simp [leadsWith] at h
    | cons b bs =>
      simp only [leadsWith, Bool.and_eq_true, beq_iff_eq] at h
      obtain ⟨rfl, h2⟩ := h
      simpa using ih h2

theorem firstOcc_cons_pos {eof : List Byte} {a : Byte} {s : List Byte}
    (hl : leadsWith eof (a :: s) = true) : firstOcc eof (a :: s) = some 0 := by
  simp [firstOcc, hl]

theorem firstOcc_cons_neg {eof : List Byte} {a : Byte} {s : List Byte}
    (hl : ¬ leadsWith eof (a :: s) = true) :
    firstOcc eof (a :: s) = (firstOcc eof s).map (· + 1) := by
  simp [firstOcc, hl]

theorem firstOcc_some_leads {eof buf : List Byte} {i : Nat}
    (h : firstOcc eof buf = some i) : leadsWith eof (buf.drop i) = true := by
  induction buf generalizing i with
  | nil => simp [firstOcc] at h
  | cons a s ih =>
    by_cases hl : leadsWith eof (a :: s) = true
    · rw [firstOcc_cons_pos hl] at h
      injection h with h
      subst h
      simpa using hl
    · rw [firstOcc_cons_neg hl] at h
      cases hfo : firstOcc eof s with
      | none => rw [hfo] at h; simp at h
      | some j =>
        rw [hfo] at h
        simp only [Option.map_some'] at h
        injection h with h
        subst h
        simpa using ih hfo

theorem firstOcc_some_le {eof buf : List Byte} {i : Nat} (hne : eof ≠ [])
    (h : firstOcc eof buf = some i) : i + eof.length ≤ buf.length := by
  have hlw := firstOcc_some_leads h
  have hlen := leadsWith_length hlw
  have hdl : (buf.drop i).length = buf.length - i := List.length_drop i buf
  have hi : i ≤ buf.length := by
    by_contra hgt
    push_neg at hgt
    have : buf.drop i = [] := List.drop_eq_nil_of_le (Nat.le_of_lt hgt)
    rw [this] at hlw
    cases eof with
    | nil => exact hne rfl
    | cons e es => simp [leadsWith] at hlw
  omega

theorem firstOcc_none_leads {eof buf : List Byte} (hne : eof ≠ [])
    (h : firstOcc eof buf = none) : ∀ j, leadsWith eof (buf.drop j) = false := by
  induction buf with
  | nil =>
    intro j
    cases eof with
    | nil => exact absurd rfl hne
    | cons e es => simp [leadsWith]
  | cons a s ih =>
    intro j
    by_cases hl : leadsWith eof (a :: s) = true
    · rw [firstOcc_cons_pos hl] at h
      cases h
    · rw [firstOcc_cons_neg hl] at h
      have hs : firstOcc eof s = none := by
        cases hfo : firstOcc eof s with
        | none => rfl
        | some j => rw [hfo] at h; simp at h
      cases j with
      | zero =>
        cases hlb : leadsWith eof (a :: s) with
        | false => simpa using hlb
        | true => exact absurd hlb hl
      | succ j => simpa using ih hs j

theorem firstOcc_append_some {eof buf : List Byte} {i : Nat} (t : List Byte)
    (h : firstOcc eof buf = some i) : firstOcc eof (buf ++ t) = some i := by
  induction buf generalizing i with
  | nil => simp [firstOcc] at h
  | cons a s ih =>
    by_cases hl : leadsWith eof (a :: s) = true
    · rw [firstOcc_cons_pos hl] at h
      injection h with h
      subst h
      have hlt : leadsWith eof (a :: (s ++ t)) = true := by
        have := leadsWith_append t hl
        simpa using this
      rw [List.cons_append, firstOcc_cons_pos hlt]
    · rw [firstOcc_cons_neg hl] at h
      cases hfo : firstOcc eof s with
      | none => rw [hfo] at h; simp at h
      | some j =>
        rw [hfo] at h
        simp only [Option.map_some'] at h
        injection h with h
        subst h
        have hlen : eof.length ≤ (a :: s).length := by
          by_cases hne : eof = []
          · simp [hne]
          · have hb := firstOcc_some_le hne hfo
            simp only [List.length_cons]
            omega
        have hfalse : ¬ leadsWith eof ((a :: s) ++ t) = true := by
          rw [leadsWith_append_left t hlen]
          exact hl
        rw [List.cons_append] at hfalse
        rw [List.cons_append, firstOcc_cons_neg hfalse, ih hfo]
        rfl

/-- `MessageBuffer.split` as a whole: repeatedly remove the region up to and
including the first occurrence of `eof`, collecting the emitted frames and
returning the leftover buffer. The `eof = []` guard covers the case where
the JavaScript loop would never terminate; no theorem exercises it. -/
def splitAll (eof buf : List Byte) : List (List Byte) × List Byte :=
  if heof : eof = [] then ([], buf) else
  match hfo : firstOcc eof buf with
  | none => ([], buf)
  | some i =>
    have hbuf : 0 < buf.length := by
      cases buf with
      | nil => simp [firstOcc] at hfo
      | cons a s => simp
    have : (buf.drop (i + eof.length)).length < buf.length := by
      rw [List.length_drop]
      have hpos : 0 < eof.length := List.length_pos.mpr heof
      omega
    let p := splitAll eof (buf.drop (i + eof.length))
    (buf.take i :: p.1, p.2)
termination_by buf.length
decreasing_by exact this

theorem splitAll_of_none {eof buf : List Byte}
    (h : firstOcc eof buf = none) : splitAll eof buf = ([], buf) := by
  rw [splitAll.eq_def]
  split
  · rfl
  · split
    · rfl
    · rename_i i hfo
      rw [h] at hfo
      cases hfo

theorem splitAll_of_some {eof buf : List Byte} {i : Nat} (hne : eof ≠ [])
    (h : firstOcc eof buf = some i) :
    splitAll eof buf =
      (buf.take i :: (splitAll eof (buf.drop (i + eof.length))).1,
        (splitAll eof (buf.drop (i + eof.length))).2) := by
  rw [splitAll.eq_def]
  split
  · exact absurd (by assumption) hne
  · split
    · rename_i hfo
      rw [h] at hfo
      cases hfo
    · rename_i j hfo
      rw [h] at hfo
      cases hfo
      rfl

/-- Re-assemble delimiter-terminated frames: each frame followed by `eof`. -/
def joinFrames (eof : List Byte) : List (List Byte) → List Byte
  | [] => []
  | f :: fs => f ++ eof ++ joinFrames eof fs

theorem joinFrames_append (eof : List Byte) (fs gs : List (List Byte)) :
    joinFrames eof (fs ++ gs) = joinFrames eof fs ++ joinFrames eof gs := by
  induction fs with
  | nil => simp [joinFrames]
  | cons f fs ih => simp [joinFrames, ih]

/-- `split()` leaves a leftover containing no further delimiter occurrence. -/
theorem splitAll_rest_none {eof : List Byte} (hne : eof ≠ []) (buf : List Byte) :
    firstOcc eof (splitAll eof buf).2 = none := by
  suffices key : ∀ n (b : List Byte), b.length ≤ n → firstOcc eof (splitAll eof b).2 = none by
    exact key buf.length buf le_rfl
  intro n
  induction n with
  | zero =>
    intro b hb
    have hb0 : b = [] := List.length_eq_zero.mp (Nat.le_zero.mp hb)
    subst hb0
    have h0 : splitAll eof [] = ([], []) := splitAll_of_none rfl
    simp [h0, firstOcc]
  | succ n ih =>
    intro b hb
    cases hfo : firstOcc eof b with
    | none => rw [splitAll_of_none hfo]; exact hfo
    | some i =>
      rw [splitAll_of_some hne hfo]
      have hbuf : 0 < b.length := by
        cases b with
        | nil => simp [firstOcc] at hfo
        | cons a s => simp
      have hpos : 0 < eof.length := List.length_pos.mpr hne
      have hlt : (b.drop (i + eof.length)).length ≤ n := by
        rw [List.length_drop]; omega
      exact ih _ hlt

/-- Joining the frames produced by `split()` with the delimiter, followed by
the leftover, restores the buffer: `split()` loses no bytes. -/
theorem splitAll_join {eof : List Byte} (hne : eof ≠ []) (buf : List Byte) :
    joinFrames eof (splitAll eof buf).1 ++ (splitAll eof buf).2 = buf := by
  suffices key : ∀ n (b : List Byte), b.length ≤ n →
      joinFrames eof (splitAll eof b).1 ++ (splitAll eof b).2 = b by
    exact key buf.length buf le_rfl
  intro n
  induction n with
  | zero =>
    intro b hb
    have hb0 : b = [] := List.length_eq_zero.mp (Nat.le_zero.mp hb)
    subst hb0
    have h0 : splitAll eof [] = ([], []) := splitAll_of_none rfl
    simp [h0, joinFrames]
  | succ n ih =>
    intro b hb
    cases hfo : firstOcc eof b with
    | none => rw [splitAll_of_none hfo]; simp [joinFrames]
    | some i =>
      rw [splitAll_of_some hne hfo]
      have hbuf : 0 < b.length := by
        cases b with
        | nil => simp [firstOcc] at hfo
        | cons a s => simp
      have hpos : 0 < eof.length := List.length_pos.mpr hne
      have hlt : (b.drop (i + eof.length)).length ≤ n := by
        rw [List.length_drop]; omega
      have hrec := ih _ hlt
      have hdecomp : b.drop i = eof ++ b.drop (i + eof.length) := by
        have hlw := firstOcc_some_leads hfo
        have hd := leadsWith_decomp hlw
        rw [List.drop_drop] at hd
        rw [hd]
      calc joinFrames eof (b.take i :: (splitAll eof (b.drop (i + eof.length))).1) ++
            (splitAll eof (b.drop (i + eof.length))).2
          = b.take i ++ eof ++ (joinFrames eof (splitAll eof (b.drop (i + eof.length))).1 ++
            (splitAll eof (b.drop (i + eof.length))).2) := by
            simp [joinFrames]
        _ = b.take i ++ eof ++ b.drop (i + eof.length) := by rw [hrec]
        _ = b.take i ++ b.drop i := by rw [hdecomp]; simp
        _ = b := List.take_append_drop i b

/-- Splitting a buffer extended on the right first yields the frames of the
left part, then continues on the leftover joined with the extension: the
compositional law that makes framing independent of chunk boundaries. -/
theorem splitAll_append {eof : List Byte} (hne : eof ≠ []) (buf t : List Byte) :
    splitAll eof (buf ++ t) =
      ((splitAll eof buf).1 ++ (splitAll eof ((splitAll eof buf).2 ++ t)).1,
        (splitAll eof ((splitAll eof buf).2 ++ t)).2) := by
  suffices key : ∀ n (b : List Byte), b.length ≤ n →
      splitAll eof (b ++ t) =
        ((splitAll eof b).1 ++ (splitAll eof ((splitAll eof b).2 ++ t)).1,
          (splitAll eof ((splitAll eof b).2 ++ t)).2) by
    exact key buf.length buf le_rfl
  intro n
  induction n with
  | zero =>
    intro b hb
    have hb0 : b = [] := List.length_eq_zero.mp (Nat.le_zero.mp hb)
    subst hb0
    have h0 : splitAll eof [] = ([], []) := splitAll_of_none rfl
    simp [h0]
  | succ n ih =>
    intro b hb
    cases hfo : firstOcc eof b with
    | none => rw [splitAll_of_none hfo]; simp
    | some i =>
      have hbuf : 0 < b.length := by
        cases b with
        | nil => simp [firstOcc] at hfo
        | cons a s => simp
      have hpos : 0 < eof.length := List.length_pos.mpr hne
      have hle : i + eof.length ≤ b.length := firstOcc_some_le hne hfo
      have hlt : (b.drop (i + eof.length)).length ≤ n := by
        rw [List.length_drop]; omega
      have hfo2 : firstOcc eof (b ++ t) = some i := firstOcc_append_some t hfo
      have htake : (b ++ t).take i = b.take i :=
        List.take_append_of_le_length (by omega)
      have hdrop : (b ++ t).drop (i + eof.length) = b.drop (i + eof.length) ++ t :=
        List.drop_append_of_le_length hle
      rw [splitAll_of_some hne hfo, splitAll_of_some hne hfo2, htake, hdrop,
        ih _ hlt]
      simp

/-! ### The per-connection chunk process

`Client.processRxData` does `rx_buffer.append(data)` then `rx_buffer.split()`
on every received chunk (src/client/client.js `processRxData`); the buffer
starts as JavaScript `null` and `appendBuffer` replaces a null buffer by the
chunk, otherwise concatenates (src/message/messageBuffer.js `appendBuffer`). -/

/-- `MessageBuffer.appendBuffer` on the nullable buffer. -/
def mbAppendBuffer : Option (List Byte) → List Byte → Option (List Byte)
  | none, c => some c
  | some b, c => some (b ++ c)

/-- The bytes currently buffered (a null buffer holds none). -/
def pendingData : Option (List Byte) → List Byte
  | none => []
  | some b => b

/-- One `append(chunk)` followed by one `split()`. -/
def processChunk (eof : List Byte) (st : Option (List Byte)) (c : List Byte) :
    List (List Byte) × Option (List Byte) :=
  let p := splitAll eof (pendingData (mbAppendBuffer st c))
  (p.1, some p.2)

/-- Feed a sequence of chunks, collecting all frames emitted by the
per-chunk `split()` calls in order. -/
def processChunks (eof : List Byte) : List (List Byte) → Option (List Byte) →
    List (List Byte) × Option (List Byte)
  | [], st => ([], st)
  | c :: cs, st =>
    let p := processChunk eof st c
    let q := processChunks eof cs p.2
    (p.1 ++ q.1, q.2)

theorem processChunks_some {eof : List Byte} (hne : eof ≠ []) :
    ∀ (cs : List (List Byte)) (b : List Byte), firstOcc eof b = none →
      processChunks eof cs (some b) =
        ((splitAll eof (b ++ cs.flatten)).1, some (splitAll eof (b ++ cs.flatten)).2) := by
  intro cs
  induction cs with
  | nil =>
    intro b hb
    simp [processChunks, splitAll_of_none hb]
  | cons c cs ih =>
    intro b hb
    have hrest := splitAll_rest_none hne (b ++ c)
    have hstep := ih (splitAll eof (b ++ c)).2 hrest
    have hsplit := splitAll_append hne (b ++ c) cs.flatten
    simp only [processChunks, processChunk, mbAppendBuffer, pendingData]
    rw [hstep]
    rw [List.flatten_cons, ← List.append_assoc, hsplit]

theorem processChunks_none {eof : List Byte} (hne : eof ≠ []) (cs : List (List Byte)) :
    (processChunks eof cs none).1 = (splitAll eof cs.flatten).1 ∧
      pendingData (processChunks eof cs none).2 = (splitAll eof cs.flatten).2 := by
  cases cs with
  | nil =>
    constructor
    · simp [processChunks, splitAll_of_none (by simp [firstOcc] : firstOcc eof [] = none)]
    · simp [processChunks, pendingData,
        splitAll_of_none (by simp [firstOcc] : firstOcc eof [] = none)]
  | cons c cs =>
    have hrest := splitAll_rest_none hne c
    have hstep := processChunks_some hne cs (splitAll eof c).2 hrest
    have hsplit := splitAll_append hne c cs.flatten
    constructor
    · simp only [processChunks, processChunk, mbAppendBuffer, pendingData]
      rw [hstep, List.flatten_cons, hsplit]
    · simp only [processChunks, processChunk, mbAppendBuffer, pendingData]
      rw [hstep, List.flatten_cons, hsplit]

/-! ### Uniqueness of the framing for a one-byte delimiter

The default delimiter is `"\r"`, a single byte; for a one-byte delimiter a
buffer equal to delimiter-terminated frames (none containing the delimiter)
followed by a delimiter-free remainder splits back into exactly those
frames and that remainder. -/

theorem firstOcc_single_of_notMem {d : Byte} {s : List Byte} (h : d ∉ s) :
    firstOcc [d] s = none := by
  induction s with
  | nil => rfl
  | cons a s ih =>
    have hne : d ≠ a := fun he => h (he ▸ List.mem_cons_self a s)
    have hl : ¬ leadsWith [d] (a :: s) = true := by
      simp [leadsWith, hne]
    rw [firstOcc_cons_neg hl, ih (fun hm => h (List.mem_cons_of_mem a hm))]
    rfl

theorem firstOcc_single_append {d : Byte} {f : List Byte} (t : List Byte)
    (h : d ∉ f) : firstOcc [d] (f ++ d :: t) = some f.length := by
  induction f with
  | nil =>
    have hl : leadsWith [d] (d :: t) = true := by simp [leadsWith]
    simpa using firstOcc_cons_pos hl
  | cons a f ih =>
    have hne : d ≠ a := fun he => h (he ▸ List.mem_cons_self a f)
    have hl : ¬ leadsWith [d] ((a :: f) ++ d :: t) = true := by
      simp [leadsWith, hne]
    rw [List.cons_append] at hl
    rw [List.cons_append, firstOcc_cons_neg hl,
      ih (fun hm => h (List.mem_cons_of_mem a hm))]
    rfl

theorem splitAll_single_frame {d : Byte} {f : List Byte} (t : List Byte)
    (h : d ∉ f) :
    splitAll [d] (f ++ d :: t) =
      (f :: (splitAll [d] t).1, (splitAll [d] t).2) := by
  have hne : ([d] : List Byte) ≠ [] := by simp
  rw [splitAll_of_some hne (firstOcc_single_append t h)]
  have htake : (f ++ d :: t).take f.length = f := by
    exact List.take_left f (d :: t)
  have hdrop : (f ++ d :: t).drop (f.length + 1) = t := by
    rw [show f.length + 1 = (f ++ [d]).length by simp]
    rw [show f ++ d :: t = (f ++ [d]) ++ t by simp]
    exact List.drop_left (f ++ [d]) t
  rw [show (f.length + [d].length) = f.length + 1 by simp, htake, hdrop]

theorem splitAll_single_of_frames {d : Byte} {F : List (List Byte)} {P : List Byte}
    (hF : ∀ f ∈ F, d ∉ f) (hP : d ∉ P) :
    splitAll [d] (joinFrames [d] F ++ P) = (F, P) := by
  induction F with
  | nil =>
    simpa [joinFrames] using splitAll_of_none (firstOcc_single_of_notMem hP)
  | cons f F ih =>
    have hf : d ∉ f := hF f (List.mem_cons_self f F)
    have hFr : ∀ g ∈ F, d ∉ g := fun g hg => hF g (List.mem_cons_of_mem f hg)
    have harr : joinFrames [d] (f :: F) ++ P = f ++ d :: (joinFrames [d] F ++ P) := by
      simp [joinFrames]
    rw [harr, splitAll_single_frame _ hf, ih hFr]

/-- **C1.** MessageBuffer framing round-trip: when the concatenation of the
appended chunks equals `N` delimiter-terminated frames (none containing the
one-byte delimiter `d`, the shape of the default `"\r"`) plus a trailing
delimiter-free partial frame `P`, the frames collected from the `split()`
after each `append` are exactly those `N` frames in arrival order, the bytes
after the last delimiter stay pending, and appending the delimiter later
makes the final `split()` emit the partial frame. -/
theorem messageBuffer_framing_roundtrip (d : Byte) (chunks F : List (List Byte))
    (P : List Byte) (hF : ∀ f ∈ F, d ∉ f) (hP : d ∉ P)
    (hcat : chunks.flatten = joinFrames [d] F ++ P) :
    (processChunks [d] chunks none).1 = F ∧
      pendingData (processChunks [d] chunks none).2 = P ∧
      (processChunks [d] (chunks ++ [[d]]) none).1 = F ++ [P] := by
  have hne : ([d] : List Byte) ≠ [] := by simp
  have hmain := processChunks_none hne chunks
  have hsplit : splitAll [d] chunks.flatten = (F, P) := by
    rw [hcat]; exact splitAll_single_of_frames hF hP
  refine ⟨?_, ?_, ?_⟩
  · rw [hmain.1, hsplit]
  · rw [hmain.2, hsplit]
  · have hmain2 := processChunks_none hne (chunks ++ [[d]])
    have hflat : (chunks ++ [[d]]).flatten = joinFrames [d] (F ++ [P]) ++ [] := by
      rw [List.flatten_append, hcat, joinFrames_append]
      simp [joinFrames]
    have hF2 : ∀ f ∈ F ++ [P], d ∉ f := by
      intro f hf
      rcases List.mem_append.mp hf with hl | hr
      · exact hF f hl
      · rcases List.mem_singleton.mp hr with rfl
        exact hP
    have hsplit2 : splitAll [d] (chunks ++ [[d]]).flatten = (F ++ [P], []) := by
      rw [hflat]
      exact splitAll_single_of_frames hF2 (by simp)
    rw [hmain2.1, hsplit2]

/-- Witness for C1 at a concrete input: chunks `[1,13,2]` and `[3]` with
delimiter byte `13` carry one complete frame `[1]` and partial `[2,3]`. -/
theorem messageBuffer_framing_roundtrip_witness :
    (processChunks [13] [[1, 13, 2], [3]] none).1 = [[1]] ∧
      pendingData (processChunks [13] [[1, 13, 2], [3]] none).2 = [2, 3] ∧
      (processChunks [13] ([[1, 13, 2], [3]] ++ [[13]]) none).1 = [[1], [2, 3]] :=
  messageBuffer_framing_roundtrip 13 [[1, 13, 2], [3]] [[1]] [2, 3]
    (by decide) (by decide) (by decide)

/-! ## Message (src/message/message.js) and JsonMessage (src/json/jsonMessage.js)

The envelope has `route`, `data`, `status`, `timestamp`. The payload is
either the JSON object form used by the built-in routes (with the fields the
handlers read) or the plain diagnostic text stored by `setError`. -/

inductive MsgStatus
  | error
  | ok
  | done
deriving DecidableEq, Repr

/-- The fields of `message.data` read by the built-in server routes. -/
structure MsgData where
  dname : String
  dpassword : String
  dclientId : String
deriving DecidableEq, Repr

inductive MsgPayload
  | obj (o : MsgData)
  | text (s : String)
deriving DecidableEq, Repr

structure Msg where
  route : String
  data : MsgPayload
  status : MsgStatus
  timestamp : Nat
deriving DecidableEq, Repr

/-- The `Message`/`JsonMessage` constructor with its defaults:
`route = options.route || ""`, `data = options.data || {}`,
`status = options.status || ok`, `timestamp = Date.now()`. -/
def newJsonMessage (route : String) (now : Nat) : Msg :=
  ⟨route, .obj ⟨"", "", ""⟩, .ok, now⟩

def Msg.setDone (m : Msg) : Msg := { m with status := .done }

def Msg.isDone (m : Msg) : Bool := m.status = MsgStatus.done

/-- `Message.setError`: status becomes error; the text is stashed as data
when non-empty (`if(text)` — the empty string is falsy in JavaScript). -/
def Msg.setError (m : Msg) (text : String) : Msg :=
  if text = "" then { m with status := .error }
  else { m with status := .error, data := .text text }

/-- Read `message.data.name` the way the handlers do (undefined on a
text payload is modelled as the empty name). -/
def Msg.dataName (m : Msg) : String :=
  match m.data with
  | .obj o => o.dname
  | .text _ => ""

def Msg.dataPassword (m : Msg) : String :=
  match m.data with
  | .obj o => o.dpassword
  | .text _ => ""

/-- The object decoded from a wire payload; each field may be absent
(`typeof obj.x !== "undefined"` guards in `Message.fromObject`). -/
structure WireObj where
  wroute : Option String
  wstatus : Option MsgStatus
  wdata : Option MsgPayload
  wtimestamp : Option Nat
deriving DecidableEq, Repr

/-- `Message.fromObject`: set each Message property present in the object. -/
def Msg.fromObject (m : Msg) (o : WireObj) : Msg :=
  { route := o.wroute.getD m.route,
    status := o.wstatus.getD m.status,
    data := o.wdata.getD m.data,
    timestamp := o.wtimestamp.getD m.timestamp }

/-- `JsonMessage.fromJsonString`: `JSON.parse` is the external library call,
abstracted by its outcome `parsed` (`none` when it throws). On failure the
error is caught and logged (the returned flag) and the Message is left
untouched; on success `fromObject` is applied. -/
def fromJsonString (m : Msg) (parsed : Option WireObj) : Msg × Bool :=
  match parsed with
  | none => (m, true)
  | some o => (m.fromObject o, false)

/-! ## Client routing (src/client/client.js)

`addDefaultRoutes` registers `/ping`, `/pong` and `/hb`;
`routeMessage` looks the route up, runs the handler, writes the returned
response if any, and always emits the (possibly mutated) message. -/

/-- JavaScript `Map.get` over an association list. -/
def lookupRoute {α : Type} : List (String × α) → String → Option α
  | [], _ => none
  | (k, v) :: rest, r => if k = r then some v else lookupRoute rest r

/-- The Client's built-in router. `/ping` marks the message done and answers
`/pong`; `/pong` records latency and marks done; `/hb` marks done and
answers `/hb`. Responses are built by `createMessage` at time `now`. -/
def clientRouter (now : Nat) : List (String × (Msg → Msg × Option Msg)) :=
  [("/ping", fun m => (m.setDone, some (newJsonMessage "/pong" now))),
   ("/pong", fun m => (m.setDone, none)),
   ("/hb", fun m => (m.setDone, some (newJsonMessage "/hb" now)))]

/-- `Client.routeMessage`: returns the message after local handling, the
response writes, and the `message` events emitted by this call. -/
def clientRouteMessage (now : Nat) (m : Msg) : Msg × List Msg × List Msg :=
  match lookupRoute (clientRouter now) m.route with
  | some h =>
    let p := h m
    (p.1, p.2.toList, [p.1])
  | none => (m, [], [m])

/-! ## Server routing (src/server/server.js)

`Server.routeMessage` returns immediately when `message.isDone()`;
otherwise it looks the route up in the Server's router and writes back a
response when the handler produces one. -/

structure RouteOutcome where
  invoked : Bool
  writes : List Msg
deriving DecidableEq, Repr

def serverRouteMessage (router : List (String × (Msg → String → Option Msg)))
    (m : Msg) (clientId : String) : RouteOutcome :=
  if m.isDone then ⟨false, []⟩
  else
    match lookupRoute router m.route with
    | some h =>
      match h m clientId with
      | some resp => ⟨true, [resp]⟩
      | none => ⟨true, []⟩
    | none => ⟨false, []⟩

/-- The route names registered by `Server.addDefaultRoutes`. -/
def serverRouteKeys : List String :=
  ["/client/whisper", "/room/add", "/room/delete", "/room/empty", "/room/get",
   "/room/join", "/room/leave", "/room/client/ban", "/room/client/get",
   "/room/client/kick"]

/-- **C2.** A done message stops further routing: `Server.routeMessage`
invokes no handler and writes nothing for a done message; in particular the
Client's built-in `/ping` route marks the inbound message done, so the
Server's router never handles that message. -/
theorem done_status_stops_server_routing :
    (∀ (router : List (String × (Msg → String → Option Msg))) (m : Msg)
      (cid : String), m.status = MsgStatus.done →
        serverRouteMessage router m cid = ⟨false, []⟩) ∧
    (∀ (router : List (String × (Msg → String → Option Msg))) (now : Nat)
      (m : Msg) (cid : String), m.route = "/ping" →
        (clientRouteMessage now m).1.status = MsgStatus.done ∧
        serverRouteMessage router (clientRouteMessage now m).1 cid = ⟨false, []⟩) := by
  constructor
  · intro router m cid hdone
    simp [serverRouteMessage, Msg.isDone, hdone]
  · intro router now m cid hroute
    have hstep : (clientRouteMessage now m).1 = m.setDone := by
      simp [clientRouteMessage, clientRouter, lookupRoute, hroute]
    constructor
    · rw [hstep]; rfl
    · rw [hstep]
      simp [serverRouteMessage, Msg.isDone, Msg.setDone]

/-- Witness for C2 on a concrete `/ping` message and an empty router. -/
theorem done_status_stops_server_routing_witness :
    serverRouteMessage [] (newJsonMessage "/x" 0).setDone "a" = ⟨false, []⟩ ∧
      (clientRouteMessage 7 (newJsonMessage "/ping" 3)).1.status = MsgStatus.done :=
  ⟨done_status_stops_server_routing.1 [] (newJsonMessage "/x" 0).setDone "a" rfl,
    (done_status_stops_server_routing.2 [] 7 (newJsonMessage "/ping" 3) "a" rfl).1⟩

theorem lookupRoute_eq_none {α : Type} (l : List (String × α)) (r : String)
    (h : r ∉ l.map Prod.fst) : lookupRoute l r = none := by
  induction l with
  | nil => rfl
  | cons p rest ih =>
    have hne : p.1 ≠ r := by
      intro he
      exact h (by simp [he])
    simp only [lookupRoute, hne, if_false]
    exact ih (fun hm => h (by simp at hm ⊢; exact Or.inr hm))

/-- **C8.** Malformed payload deserialization is local and non-throwing:
when `JSON.parse` fails, `fromJsonString` only logs and leaves every field
of the freshly constructed Message unchanged, so the Message keeps the empty
route `""`, which matches no default server route and no built-in client
route — routing it is a no-op. -/
theorem malformed_json_is_noop (now now2 : Nat) (cid : String)
    (router : List (String × (Msg → String → Option Msg)))
    (hkeys : router.map Prod.fst = serverRouteKeys) :
    fromJsonString (newJsonMessage "" now) none = (newJsonMessage "" now, true) ∧
      (newJsonMessage "" now).route = "" ∧
      serverRouteMessage router (newJsonMessage "" now) cid = ⟨false, []⟩ ∧
      clientRouteMessage now2 (newJsonMessage "" now) =
        (newJsonMessage "" now, [], [newJsonMessage "" now]) := by
  have hnotmem : "" ∉ router.map Prod.fst := by
    rw [hkeys]
    decide
  have hnone := lookupRoute_eq_none router "" hnotmem
  refine ⟨rfl, rfl, ?_, ?_⟩
  · simp [serverRouteMessage, Msg.isDone, newJsonMessage, hnone]
  · simp [clientRouteMessage, clientRouter, lookupRoute, newJsonMessage]

/-- Witness for C8: a concrete default router (all handlers answer nothing). -/
theorem malformed_json_is_noop_witness :
    fromJsonString (newJsonMessage "" 5) none = (newJsonMessage "" 5, true) ∧
      (newJsonMessage "" 5).route = "" ∧
      serverRouteMessage (serverRouteKeys.map (fun k => (k, fun _ _ => none)))
        (newJsonMessage "" 5) "c" = ⟨false, []⟩ ∧
      clientRouteMessage 6 (newJsonMessage "" 5) =
        (newJsonMessage "" 5, [], [newJsonMessage "" 5]) :=
  malformed_json_is_noop 5 6 "c"
    (serverRouteKeys.map (fun k => (k, fun _ _ => none)))
    (by simp [Function.comp_def])

/-! ## Stream receive path (src/client/client.js `processRxData`)

Each raw chunk is appended to the rx buffer and the buffer split; every
resulting frame is deserialized, passed through `routeMessage` (which emits
`message` once) and then emitted as `message` a second time by the loop in
`processRxData` itself. The frame-to-Message deserialization is abstracted
by `decode`. The rx buffer delimiter is the Client default `"\r"`. -/

def crByte : List Byte := [13]

def processRxStep (now : Nat) (decode : List Byte → Msg)
    (st : Option (List Byte)) (chunk : List Byte) :
    Option (List Byte) × List Msg × List Msg :=
  let p := processChunk crByte st chunk
  let msgs := p.1.map decode
  (p.2, msgs.flatMap (fun m => (clientRouteMessage now m).2.1),
    msgs.flatMap (fun m => [(clientRouteMessage now m).1, (clientRouteMessage now m).1]))

def processRxAll (now : Nat) (decode : List Byte → Msg) :
    List (List Byte) → Option (List Byte) → Option (List Byte) × List Msg × List Msg
  | [], st => (st, [], [])
  | c :: cs, st =>
    let p := processRxStep now decode st c
    let q := processRxAll now decode cs p.1
    (q.1, p.2.1 ++ q.2.1, p.2.2 ++ q.2.2)

theorem processRxAll_emitted (now : Nat) (decode : List Byte → Msg)
    (cs : List (List Byte)) (st : Option (List Byte)) :
    (processRxAll now decode cs st).2.2 =
      ((processChunks crByte cs st).1.map
        (fun d => (clientRouteMessage now (decode d)).1)).flatMap (fun m => [m, m]) := by
  induction cs generalizing st with
  | nil => simp [processRxAll, processChunks]
  | cons c cs ih =>
    simp only [processRxAll, processRxStep, processChunks]
    rw [ih]
    simp [List.flatMap_append, List.flatMap_map, List.map_map, Function.comp_def]

theorem countP_flatMap_pair (p : Msg → Bool) (l : List Msg) :
    (l.flatMap (fun m => [m, m])).countP p = 2 * l.countP p := by
  induction l with
  | nil => rfl
  | cons m l ih =>
    by_cases hm : p m
    · simp [List.countP_cons, hm, ih]
      omega
    · simp [List.countP_cons, hm, ih]

theorem length_flatMap_pair (l : List Msg) :
    (l.flatMap (fun m => [m, m])).length = 2 * l.length := by
  induction l with
  | nil => rfl
  | cons m l ih => simp [ih]; omega

theorem serverRouteMessage_invoked (router : List (String × (Msg → String → Option Msg)))
    (m : Msg) (cid : String) :
    (serverRouteMessage router m cid).invoked =
      (!m.isDone && (lookupRoute router m.route).isSome) := by
  by_cases hd : m.isDone
  · simp [serverRouteMessage, hd]
  · cases hl : lookupRoute router m.route with
    | none => simp [serverRouteMessage, hd, hl]
    | some h =>
      cases hr : h m cid with
      | none => simp [serverRouteMessage, hd, hl, hr]
      | some resp => simp [serverRouteMessage, hd, hl, hr]

/-- **C10.** Duplicate emission on the stream path: feeding chunks carrying
`k` complete frames makes the Client emit `message` exactly `2k` times —
each locally routed Message appears twice in a row (once emitted inside
`routeMessage`, once by the `processRxData` loop) — and an owning Server
routing every emission therefore invokes a route handler twice per frame
whose message survives local routing without being marked done. -/
theorem stream_path_emits_each_message_twice (now : Nat)
    (decode : List Byte → Msg) (chunks : List (List Byte)) :
    (processRxAll now decode chunks none).2.2 =
      ((processChunks crByte chunks none).1.map
        (fun d => (clientRouteMessage now (decode d)).1)).flatMap (fun m => [m, m]) ∧
    (processRxAll now decode chunks none).2.2.length =
      2 * (processChunks crByte chunks none).1.length ∧
    (∀ (router : List (String × (Msg → String → Option Msg))) (cid : String),
      ((processRxAll now decode chunks none).2.2.countP
          (fun m => (serverRouteMessage router m cid).invoked)) =
        2 * (((processChunks crByte chunks none).1.map
          (fun d => (clientRouteMessage now (decode d)).1)).countP
            (fun m => !m.isDone && (lookupRoute router m.route).isSome))) := by
  refine ⟨processRxAll_emitted now decode chunks none, ?_, ?_⟩
  · rw [processRxAll_emitted now decode chunks none, length_flatMap_pair]
    simp
  · intro router cid
    rw [processRxAll_emitted now decode chunks none]
    have hcong : ((processChunks crByte chunks none).1.map
        (fun d => (clientRouteMessage now (decode d)).1)).countP
          (fun m => (serverRouteMessage router m cid).invoked) =
        ((processChunks crByte chunks none).1.map
          (fun d => (clientRouteMessage now (decode d)).1)).countP
            (fun m => !m.isDone && (lookupRoute router m.route).isSome) := by
      apply List.countP_congr
      intro m _
      rw [serverRouteMessage_invoked]
    rw [countP_flatMap_pair, hcong]

/-! ## ClientManager (src/unnamed/part_028) over ObjectManager (src/unnamed/part_034)

This is the ClientManager generation that src/room/room.js extends.
`objectCount` is `Object.keys(this.objects).length`; `addObject` inserts
(JavaScript map upsert) unless the count already equals the positive
maximum; `banClient` deletes the client and pushes the id onto
`bannedList`; nothing in `addObject`/`addClient` consults the ban list. -/

/-- JavaScript `obj[id] = v`: overwrite in place or append. -/
def jsUpsert : List (String × Nat) → String → Nat → List (String × Nat)
  | [], id, c => [(id, c)]
  | (k, v) :: rest, id, c =>
    if k = id then (k, c) :: rest else (k, v) :: jsUpsert rest id c

/-- JavaScript `obj[id]` read. -/
def jsGet : List (String × Nat) → String → Option Nat
  | [], _ => none
  | (k, v) :: rest, id => if k = id then some v else jsGet rest id

/-- JavaScript `delete obj[id]`. -/
def jsDelete (l : List (String × Nat)) (id : String) : List (String × Nat) :=
  l.filter (fun p => ¬ p.1 = id)

structure ClientManagerS where
  maxClients : Nat
  objects : List (String × Nat)
  bannedList : List String
deriving DecidableEq, Repr

def newClientManager (maxClients : Nat) : ClientManagerS := ⟨maxClients, [], []⟩

/-- `ObjectManager.addObject` (part_034): insert while
`!this.maxObjects || this.objectCount !== this.maxObjects`. The
`instanceof Client` guard of `ClientManager.addObject` (part_028) passes for
every genuine client and is not modelled. -/
def cmAddObject (m : ClientManagerS) (id : String) (c : Nat) : ClientManagerS :=
  if m.maxClients = 0 ∨ m.objects.length ≠ m.maxClients then
    { m with objects := jsUpsert m.objects id c }
  else m

def cmAddClient (m : ClientManagerS) (id : String) (c : Nat) : ClientManagerS :=
  cmAddObject m id c

def cmDeleteClient (m : ClientManagerS) (id : String) : ClientManagerS :=
  { m with objects := jsDelete m.objects id }

/-- `ClientManager.banClient`: delete, then push onto the ban list. -/
def cmBanClient (m : ClientManagerS) (id : String) : ClientManagerS :=
  { m with objects := jsDelete m.objects id,
           bannedList := m.bannedList ++ [id] }

/-- `isClientBanned`: `this.bannedList.indexOf(clientId) > -1`. -/
def cmIsClientBanned (m : ClientManagerS) (id : String) : Bool :=
  m.bannedList.contains id

/-! ## Room (src/room/room.js)

The constructor stores `this.owner`, `this.password`, `this.private`,
`this.name` — and never `this.settings`. `checkPassword`, `lock` and
`unlock` nevertheless read/write `this.settings.password`; reading a
property of `undefined` throws a `TypeError`, modelled by `Except`. -/

inductive JsError
  | typeError
deriving DecidableEq, Repr

structure RoomSettings where
  spassword : String
deriving DecidableEq, Repr

structure RoomS where
  owner : String
  password : String
  settings : Option RoomSettings
  hidden : Bool
  rname : String
  manager : ClientManagerS
deriving DecidableEq, Repr

/-- The Room constructor: `settings` is never initialised anywhere in the
repository, so a fresh room carries `none` there. -/
def newRoom (owner password name : String) : RoomS :=
  ⟨owner, password, none, false, name, newClientManager 0⟩

/-- `Room.checkPassword`:
`this.settings.password === "" || this.settings.password === password`. -/
def roomCheckPassword (r : RoomS) (pw : String) : Except JsError Bool :=
  match r.settings with
  | none => .error .typeError
  | some s => .ok (s.spassword = "" || s.spassword = pw)

/-- `Room.lock`: `this.settings.password = password` (same missing-object
access: assigning a property of `undefined` also throws). -/
def roomLock (r : RoomS) (pw : String) : Except JsError RoomS :=
  match r.settings with
  | none => .error .typeError
  | some _ => .ok { r with settings := some ⟨pw⟩ }

def roomIsClientBanned (r : RoomS) (id : String) : Bool :=
  r.manager.bannedList.contains id

def roomIsOwner (r : RoomS) (id : String) : Bool := id = r.owner

/-- `Room.addClient` membership effect (`super.addObject`); the room-info
write and join broadcast do not change membership and are not modelled. -/
def roomAddClient (r : RoomS) (id : String) (c : Nat) : RoomS :=
  { r with manager := cmAddObject r.manager id c }

/-- `Room.join`: banned short-circuits `&&` to false before `checkPassword`
runs; otherwise `checkPassword` decides (and may throw). -/
def roomJoin (r : RoomS) (id : String) (c : Nat) (pw : String) :
    Except JsError (Bool × RoomS) :=
  if roomIsClientBanned r id then .ok (false, r)
  else
    match roomCheckPassword r pw with
    | .error e => .error e
    | .ok true => .ok (true, roomAddClient r id c)
    | .ok false => .ok (false, r)

theorem jsGet_jsUpsert (l : List (String × Nat)) (id : String) (c : Nat) :
    jsGet (jsUpsert l id c) id = some c := by
  induction l with
  | nil => simp [jsUpsert, jsGet]
  | cons p rest ih =>
    by_cases hk : p.1 = id
    · simp [jsUpsert, jsGet, hk]
    · simp [jsUpsert, jsGet, hk, ih]

/-- **C4 (counterexample).** After `banClient("a")` on a fresh unbounded
ClientManager, `addClient("a", client)` admits the banned id again: the
lookup does not come back empty, refuting "addClient fails to admit". -/
theorem ban_then_addClient_admits :
    ¬ (jsGet (cmAddClient (cmBanClient (newClientManager 0) "a") "a" 1).objects "a"
        = none) := by
  decide

/-- **C4 (amended).** Ban enforcement as implemented: a banned id can never
`Room.join` (any password, any room state — including after being removed
and re-added), but `ClientManager.addClient` never consults the ban list
and admits a banned id again whenever the capacity check passes. -/
theorem ban_blocks_join_but_not_addClient :
    (∀ (r : RoomS) (id : String) (c : Nat) (pw : String),
      roomIsClientBanned r id = true → roomJoin r id c pw = .ok (false, r)) ∧
    (∀ (m : ClientManagerS) (id : String) (c : Nat),
      (m.maxClients = 0 ∨ m.objects.length ≠ m.maxClients) →
        jsGet (cmAddClient m id c).objects id = some c) := by
  constructor
  · intro r id c pw hban
    simp [roomJoin, hban]
  · intro m id c hcap
    simp [cmAddClient, cmAddObject, hcap, jsGet_jsUpsert]

/-- Witness for C4 (amended) on a room whose manager banned `"a"` and the
same manager's `addClient`. -/
theorem ban_blocks_join_but_not_addClient_witness :
    roomJoin
        { newRoom "o" "secret" "lobby" with
          manager := cmBanClient (newClientManager 0) "a" } "a" 1 "secret" =
      .ok (false,
        { newRoom "o" "secret" "lobby" with
          manager := cmBanClient (newClientManager 0) "a" }) ∧
    jsGet (cmAddClient (cmBanClient (newClientManager 0) "a") "a" 1).objects "a" =
      some 1 :=
  ⟨ban_blocks_join_but_not_addClient.1
      { newRoom "o" "secret" "lobby" with
        manager := cmBanClient (newClientManager 0) "a" } "a" 1 "secret" (by decide),
    ban_blocks_join_but_not_addClient.2
      (cmBanClient (newClientManager 0) "a") "a" 1 (by decide)⟩

/-- **C5 (code bug).** Room access control never gets to compare passwords:
`join` on a fresh Room with password `"secret"` by a non-banned client with
the correct password throws a `TypeError`, because `checkPassword` reads
`this.settings.password` and `this.settings` is never assigned anywhere in
the repository (the constructor stores the password in `this.password`,
which `serialize` reads — `checkPassword` reads the wrong field). -/
theorem room_join_throws_typeError :
    roomJoin (newRoom "o" "secret" "lobby") "c" 1 "secret" = .error .typeError := by
  rfl

/-! ## Server room handlers (src/server/server.js) and Room request
handlers (src/room/room.js)

`handleMessageRoomDelete` validates existence then ownership and only then
mutates the room registry; `handleRequestLock` validates ownership before
calling `lock`. `handleMessageRoomJoin` delegates to `Room.join`. -/

abbrev RoomsMap := List (String × RoomS)

def rmGetRoom : RoomsMap → String → Option RoomS
  | [], _ => none
  | (k, r) :: rest, n => if k = n then some r else rmGetRoom rest n

def rmDeleteRoom (rooms : RoomsMap) (n : String) : RoomsMap :=
  rooms.filter (fun p => ¬ p.1 = n)

/-- In-place mutation of the room object held by the registry. -/
def rmSetRoom : RoomsMap → String → RoomS → RoomsMap
  | [], _, _ => []
  | (k, r) :: rest, n, r2 =>
    if k = n then (k, r2) :: rest else (k, r) :: rmSetRoom rest n r2

/-- Outcome of a server route handler: the response message, the room
registry afterwards, and whether any client was disconnected (none of
these handlers contains a disconnect call). -/
structure HandlerResult where
  response : Msg
  rooms : RoomsMap
  disconnected : Bool
deriving DecidableEq

def handleMessageRoomDelete (now : Nat) (rooms : RoomsMap) (m : Msg)
    (cid : String) : Except JsError HandlerResult :=
  let msg := newJsonMessage "/room/delete" now
  match rmGetRoom rooms m.dataName with
  | none => .ok ⟨msg.setError "Invalid room", rooms, false⟩
  | some room =>
    if roomIsOwner room cid then .ok ⟨msg, rmDeleteRoom rooms m.dataName, false⟩
    else .ok ⟨msg.setError "You are not the father", rooms, false⟩

def handleMessageRoomJoin (now : Nat) (rooms : RoomsMap) (m : Msg)
    (cid : String) (c : Nat) : Except JsError HandlerResult :=
  let msg := newJsonMessage "/room/join" now
  match rmGetRoom rooms m.dataName with
  | none => .ok ⟨msg.setError "Invalid room", rooms, false⟩
  | some room =>
    match roomJoin room cid c m.dataPassword with
    | .error e => .error e
    | .ok (true, room2) => .ok ⟨msg, rmSetRoom rooms m.dataName room2, false⟩
    | .ok (false, _) => .ok ⟨msg.setError "Invalid password", rooms, false⟩

/-- `ServerMessage` (src/server/serverMessage.js): ok by default, `setError`
records status error and the diagnostic text (`msg ? msg : null`). -/
structure ServerMsgS where
  smStatus : MsgStatus
  smText : Option String
deriving DecidableEq, Repr

def newServerMessage : ServerMsgS := ⟨.ok, none⟩

def smSetError (_s : ServerMsgS) (t : String) : ServerMsgS :=
  ⟨.error, if t = "" then none else some t⟩

/-- `Room.handleRequestLock`: owner-only; non-owners get an error response
and the room is untouched. -/
def handleRequestLock (r : RoomS) (cid : String) (pw : String) :
    Except JsError (ServerMsgS × RoomS) :=
  if roomIsOwner r cid then
    match roomLock r pw with
    | .error e => .error e
    | .ok r2 => .ok (newServerMessage, r2)
  else .ok (smSetError newServerMessage "You are not the father", r)

/-- **C7 (counterexample).** A wrong-password `/room/join` request on an
existing room throws (it is not surfaced as an error-status response):
`Room.join` calls `checkPassword`, which reads the never-initialised
`this.settings`. This refutes "authorization failures never throw". -/
theorem wrong_password_join_handler_throws :
    handleMessageRoomJoin 0 [("lobby", newRoom "o" "secret" "lobby")]
        { route := "/room/join", data := .obj ⟨"lobby", "wrong", ""⟩,
          status := .ok, timestamp := 0 } "c" 1 =
      .error .typeError := by
  rfl

/-- **C7 (amended).** Invalid-room and non-owner requests are
non-destructive: `/room/delete` on a missing room or from a non-owner, and
a room `lock` request from a non-owner, return a response with status
error and diagnostic text, throw nothing, disconnect nobody, and leave the
room registry and the room state unchanged. (The wrong-password `/room/join`
path instead crashes on the uninitialised `this.settings`.) -/
theorem auth_errors_are_nondestructive (now : Nat) (rooms : RoomsMap)
    (m : Msg) (cid : String) (r : RoomS) (pw : String) :
    (rmGetRoom rooms m.dataName = none →
      handleMessageRoomDelete now rooms m cid =
        .ok ⟨(newJsonMessage "/room/delete" now).setError "Invalid room",
          rooms, false⟩) ∧
    (∀ room, rmGetRoom rooms m.dataName = some room → roomIsOwner room cid = false →
      handleMessageRoomDelete now rooms m cid =
        .ok ⟨(newJsonMessage "/room/delete" now).setError "You are not the father",
          rooms, false⟩) ∧
    (roomIsOwner r cid = false →
      handleRequestLock r cid pw =
        .ok (smSetError newServerMessage "You are not the father", r)) := by
  refine ⟨?_, ?_, ?_⟩
  · intro hnone
    simp [handleMessageRoomDelete, hnone]
  · intro room hsome hown
    simp [handleMessageRoomDelete, hsome, hown]
  · intro hown
    simp [handleRequestLock, hown]

/-- Witness for C7 (amended): a concrete registry with one room owned by
`"o"`, probed by the stranger `"c"`. -/
theorem auth_errors_are_nondestructive_witness :
    handleMessageRoomDelete 0 [("lobby", newRoom "o" "" "lobby")]
        { route := "/room/delete", data := .obj ⟨"nosuch", "", ""⟩,
          status := .ok, timestamp := 0 } "c" =
      .ok ⟨(newJsonMessage "/room/delete" 0).setError "Invalid room",
        [("lobby", newRoom "o" "" "lobby")], false⟩ ∧
    handleMessageRoomDelete 0 [("lobby", newRoom "o" "" "lobby")]
        { route := "/room/delete", data := .obj ⟨"lobby", "", ""⟩,
          status := .ok, timestamp := 0 } "c" =
      .ok ⟨(newJsonMessage "/room/delete" 0).setError "You are not the father",
        [("lobby", newRoom "o" "" "lobby")], false⟩ ∧
    handleRequestLock (newRoom "o" "" "lobby") "c" "pw" =
      .ok (smSetError newServerMessage "You are not the father",
        newRoom "o" "" "lobby") :=
  ⟨(auth_errors_are_nondestructive 0 [("lobby", newRoom "o" "" "lobby")]
      { route := "/room/delete", data := .obj ⟨"nosuch", "", ""⟩,
        status := .ok, timestamp := 0 } "c" (newRoom "o" "" "lobby") "pw").1
      (by decide),
    (auth_errors_are_nondestructive 0 [("lobby", newRoom "o" "" "lobby")]
      { route := "/room/delete", data := .obj ⟨"lobby", "", ""⟩,
        status := .ok, timestamp := 0 } "c" (newRoom "o" "" "lobby") "pw").2.1
      (newRoom "o" "" "lobby") (by decide) (by decide),
    (auth_errors_are_nondestructive 0 [("lobby", newRoom "o" "" "lobby")]
      { route := "/room/delete", data := .obj ⟨"lobby", "", ""⟩,
        status := .ok, timestamp := 0 } "c" (newRoom "o" "" "lobby") "pw").2.2
      (by decide)⟩

/-! ## ObjectManager (src/util/objectManager.js)

`addOne` inserts while `!this.max_objects || this.count !== this.max_objects`
but increments `this.count` on every call, including rejected ones, so the
guard only fires when the running call count equals the maximum exactly. -/

structure ObjectManagerS where
  max_objects : Nat
  objects : List (String × Nat)
  count : Nat
  count_total : Nat
  count_peak : Nat
deriving DecidableEq, Repr

def newObjectManager (mx : Nat) : ObjectManagerS := ⟨mx, [], 0, 0, 0⟩

/-- `ObjectManager.addOne`. -/
def omAddOne (m : ObjectManagerS) (id : String) (c : Nat) : ObjectManagerS :=
  let m1 :=
    if m.max_objects = 0 ∨ m.count ≠ m.max_objects then
      { m with objects := jsUpsert m.objects id c }
    else m
  { m1 with count := m1.count + 1, count_total := m1.count_total + 1,
            count_peak := max m1.count_peak (m1.count + 1) }

def omAddSeq (m : ObjectManagerS) : List String → ObjectManagerS
  | [] => m
  | id :: ids => omAddSeq (omAddOne m id 0) ids

/-- **C6 (counterexample).** With `max_objects = 1`, adding `"a"`, `"b"`,
`"c"` leaves two stored objects: the registry exceeds the maximum, refuting
"the number of stored objects never exceeds m" (and the `"c"` call inserted
while the registry already held `m` members). -/
theorem capacity_overflow_after_rejection :
    ¬ ((omAddSeq (newObjectManager 1) ["a", "b", "c"]).objects.length ≤
        (omAddSeq (newObjectManager 1) ["a", "b", "c"]).max_objects) := by
  decide

theorem jsUpsert_fresh {l : List (String × Nat)} {id : String} (c : Nat)
    (h : id ∉ l.map Prod.fst) : jsUpsert l id c = l ++ [(id, c)] := by
  induction l with
  | nil => rfl
  | cons p rest ih =>
    have hne : p.1 ≠ id := by
      intro he
      exact h (by simp [he])
    simp only [jsUpsert, hne, if_false, List.cons_append]
    rw [ih (fun hm => h (by simp at hm ⊢; exact Or.inr hm))]

theorem omAddSeq_keys_general (mx : Nat) (hmx : 0 < mx) :
    ∀ (ids : List String) (m : ObjectManagerS), m.max_objects = mx →
      ids.Nodup → (∀ id ∈ ids, id ∉ m.objects.map Prod.fst) →
      (omAddSeq m ids).objects.map Prod.fst =
        m.objects.map Prod.fst ++
          (if m.count ≤ mx then ids.eraseIdx (mx - m.count) else ids) := by
  intro ids
  induction ids with
  | nil =>
    intro m hmax hnd hfresh
    simp [omAddSeq]
  | cons id ids ih =>
    intro m hmax hnd hfresh
    have hfresh0 : id ∉ m.objects.map Prod.fst := hfresh id (by simp)
    have hndtail : ids.Nodup := (List.nodup_cons.mp hnd).2
    have hidtail : id ∉ ids := (List.nodup_cons.mp hnd).1
    by_cases hskip : m.max_objects = 0 ∨ m.count ≠ m.max_objects
    · -- inserted
      have hstep : omAddOne m id 0 =
          ⟨m.max_objects, m.objects ++ [(id, 0)], m.count + 1,
            m.count_total + 1, max m.count_peak (m.count + 1)⟩ := by
        simp [omAddOne, hskip, jsUpsert_fresh 0 hfresh0]
      have hfresh2 : ∀ j ∈ ids, j ∉ (m.objects ++ [(id, 0)]).map Prod.fst := by
        intro j hj
        simp only [List.map_append, List.mem_append]
        rintro (hjl | hjr)
        · exact hfresh j (by simp [hj]) hjl
        · simp at hjr
          exact hidtail (hjr ▸ hj)
      have hrec := ih ⟨m.max_objects, m.objects ++ [(id, 0)], m.count + 1,
          m.count_total + 1, max m.count_peak (m.count + 1)⟩ hmax hndtail hfresh2
      simp only [omAddSeq, hstep]
      rw [hrec]
      simp only [List.map_append]
      rcases hskip with hz | hne
      · omega
      · rw [hmax] at hne
        by_cases hle : m.count ≤ mx
        · have hlt : m.count < mx := lt_of_le_of_ne hle (by omega)
          have h1 : m.count + 1 ≤ mx := hlt
          have h2 : mx - m.count = (mx - (m.count + 1)) + 1 := by omega
          simp only [hle, if_true, h1, if_true, h2, List.eraseIdx_cons_succ]
          simp
        · have h1 : ¬ (m.count + 1 ≤ mx) := by omega
          simp only [hle, if_false, h1, if_false]
          simp
    · -- skipped: here max ≠ 0 and count = max
      push_neg at hskip
      have hcount : m.count = mx := by rw [← hmax]; exact hskip.2
      have hcond : ¬ (m.max_objects = 0 ∨ m.count ≠ m.max_objects) := by
        push_neg
        exact hskip
      have hstep : omAddOne m id 0 =
          ⟨m.max_objects, m.objects, m.count + 1,
            m.count_total + 1, max m.count_peak (m.count + 1)⟩ := by
        simp [omAddOne, hcond]
      have hfresh2 : ∀ j ∈ ids, j ∉ m.objects.map Prod.fst := by
        intro j hj
        exact hfresh j (by simp [hj])
      have hrec := ih ⟨m.max_objects, m.objects, m.count + 1,
          m.count_total + 1, max m.count_peak (m.count + 1)⟩ hmax hndtail hfresh2
      simp only [omAddSeq, hstep]
      rw [hrec]
      have h1 : ¬ (m.count + 1 ≤ mx) := by omega
      have h2 : m.count ≤ mx := by omega
      have h3 : mx - m.count = 0 := by omega
      simp only [h1, if_false, h2, if_true, h3, List.eraseIdx_cons_zero]

/-- **C6 (amended).** Capacity as implemented: `addOne` skips the insertion
exactly on the call whose running call count equals the positive maximum —
`count` increments even on a rejected call, so of a sequence of distinct
adds only the `(m+1)`-th is dropped and the registry can end up holding
more than `m` objects. With `maxClients = 1`, adding `"a"` succeeds and
adding `"b"` is rejected, but a third add is admitted again. -/
theorem addOne_skips_only_call_number_max (mx : Nat) (ids : List String)
    (hmx : 0 < mx) (hnd : ids.Nodup) :
    (omAddSeq (newObjectManager mx) ids).objects.map Prod.fst =
      ids.eraseIdx mx ∧
    (omAddSeq (newObjectManager mx) ids).count = ids.length := by
  constructor
  · have h := omAddSeq_keys_general mx hmx ids (newObjectManager mx) rfl hnd
      (by intro id hid; simp [newObjectManager])
    simpa [newObjectManager, Nat.le_of_lt hmx] using h
  · have hcount : ∀ (l : List String) (m : ObjectManagerS),
        (omAddSeq m l).count = m.count + l.length := by
      intro l
      induction l with
      | nil => intro m; simp [omAddSeq]
      | cons id l ih =>
        intro m
        have : (omAddOne m id 0).count = m.count + 1 := by
          by_cases hc : m.max_objects = 0 ∨ m.count ≠ m.max_objects
          · simp [omAddOne, hc]
          · simp [omAddOne, hc]
        simp [omAddSeq, ih, this]
        omega
    simpa [newObjectManager] using hcount ids (newObjectManager mx)

/-- Witness for C6 (amended): `max = 1`, adds `"a"`, `"b"`, `"c"` — stored
keys are `["a", "c"]` (the second call was rejected, the third admitted). -/
theorem addOne_skips_only_call_number_max_witness :
    (omAddSeq (newObjectManager 1) ["a", "b", "c"]).objects.map Prod.fst =
      ["a", "c"] ∧
    (omAddSeq (newObjectManager 1) ["a", "b", "c"]).count = 3 :=
  addOne_skips_only_call_number_max 1 ["a", "b", "c"] (by decide) (by decide)

/-! ## UDP identity synthesis (src/unnamed/part_027, src/server/server.js,
src/udp/udpServer.js)

`UdpServerListener` keys clients by `"${rinfo.address}:${rinfo.port}"`: a
datagram whose key is in the client manager is piped to that client via
`socketReceive`; otherwise a new `UdpClient` around a virtual `UdpSocket`
is created with `id = "address:port"` and `connect` is emitted, then the
datagram delivered. `UdpServer` wires `setClientManager` so the listener
shares the Server's client manager, and `Server.handleClientConnection`
(the `connect` handler) synchronously registers the client under its id.
The composite key is modelled as the `(address, port)` pair; clients are
numbered in creation order so "same Client instance" is provable. -/

structure Dgram where
  addr : String
  port : Nat
deriving DecidableEq, Repr

abbrev UdpKey := String × Nat

def dgramKey (d : Dgram) : UdpKey := (d.addr, d.port)

def keyGet : List (UdpKey × Nat) → UdpKey → Option Nat
  | [], _ => none
  | (k, v) :: rest, q => if k = q then some v else keyGet rest q

structure UdpState where
  registry : List (UdpKey × Nat)
  nextClient : Nat
  connects : List (UdpKey × Nat)
  deliveries : List (UdpKey × Nat)
deriving DecidableEq, Repr

/-- One inbound datagram through the listener's `message` handler. -/
def udpStep (st : UdpState) (d : Dgram) : UdpState :=
  let k := dgramKey d
  match keyGet st.registry k with
  | some c => { st with deliveries := st.deliveries ++ [(k, c)] }
  | none =>
    let c := st.nextClient
    { registry := st.registry ++ [(k, c)],
      nextClient := c + 1,
      connects := st.connects ++ [(k, c)],
      deliveries := st.deliveries ++ [(k, c)] }

def udpRun (st : UdpState) : List Dgram → UdpState
  | [] => st
  | d :: ds => udpRun (udpStep st d) ds

def initUdp : UdpState := ⟨[], 0, [], []⟩

def countKey (l : List (UdpKey × Nat)) (k : UdpKey) : Nat :=
  (l.filter (fun e => e.1 = k)).length

theorem keyGet_append_of_some {l : List (UdpKey × Nat)} {k : UdpKey} {c : Nat}
    (t : List (UdpKey × Nat)) (h : keyGet l k = some c) :
    keyGet (l ++ t) k = some c := by
  induction l with
  | nil => simp [keyGet] at h
  | cons p rest ih =>
    by_cases hp : p.1 = k
    · simp only [keyGet, hp, if_true] at h
      simpa [keyGet, hp] using h
    · simp only [keyGet, hp, if_false] at h
      simpa [keyGet, hp] using ih h

theorem keyGet_append_self {l : List (UdpKey × Nat)} {k : UdpKey} (c : Nat)
    (h : keyGet l k = none) : keyGet (l ++ [(k, c)]) k = some c := by
  induction l with
  | nil => simp [keyGet]
  | cons p rest ih =>
    by_cases hp : p.1 = k
    · simp [keyGet, hp] at h
    · simp only [keyGet, hp, if_false] at h
      simpa [keyGet, hp] using ih h

theorem keyGet_append_ne {l : List (UdpKey × Nat)} {k : UdpKey} (k2 : UdpKey)
    (c : Nat) (hne : k2 ≠ k) : keyGet (l ++ [(k2, c)]) k = keyGet l k := by
  induction l with
  | nil => simp [keyGet, hne]
  | cons p rest ih =>
    by_cases hp : p.1 = k
    · simp [keyGet, hp]
    · simpa [keyGet, hp] using ih

theorem udpStep_hit {st : UdpState} {d : Dgram} {c : Nat}
    (hg : keyGet st.registry (dgramKey d) = some c) :
    udpStep st d = { st with deliveries := st.deliveries ++ [(dgramKey d, c)] } := by
  simp only [udpStep, hg]

theorem udpStep_miss {st : UdpState} {d : Dgram}
    (hg : keyGet st.registry (dgramKey d) = none) :
    udpStep st d =
      ⟨st.registry ++ [(dgramKey d, st.nextClient)], st.nextClient + 1,
        st.connects ++ [(dgramKey d, st.nextClient)],
        st.deliveries ++ [(dgramKey d, st.nextClient)]⟩ := by
  simp only [udpStep, hg]

theorem udpStep_keyGet_stable {st : UdpState} {k : UdpKey} {c : Nat} (d : Dgram)
    (h : keyGet st.registry k = some c) :
    keyGet (udpStep st d).registry k = some c := by
  cases hg : keyGet st.registry (dgramKey d) with
  | some c2 => rw [udpStep_hit hg]; exact h
  | none => rw [udpStep_miss hg]; exact keyGet_append_of_some _ h

theorem udpRun_keyGet_stable {k : UdpKey} {c : Nat} (ds : List Dgram)
    (st : UdpState) (h : keyGet st.registry k = some c) :
    keyGet (udpRun st ds).registry k = some c := by
  induction ds generalizing st with
  | nil => simpa [udpRun] using h
  | cons d ds ih => exact ih (udpStep st d) (udpStep_keyGet_stable d h)

theorem udpRun_delivery_lookup (ds : List Dgram) (st : UdpState) :
    ∀ e ∈ (udpRun st ds).deliveries,
      e ∈ st.deliveries ∨ keyGet (udpRun st ds).registry e.1 = some e.2 := by
  induction ds generalizing st with
  | nil =>
    intro e he
    exact Or.inl he
  | cons d ds ih =>
    intro e he
    rcases ih (udpStep st d) e he with hin | hlook
    · cases hg : keyGet st.registry (dgramKey d) with
      | some c =>
        rw [udpStep_hit hg] at hin
        simp only [List.mem_append] at hin
        rcases hin with hold | hnew
        · exact Or.inl hold
        · simp only [List.mem_singleton] at hnew
          subst hnew
          exact Or.inr (udpRun_keyGet_stable ds _ (udpStep_keyGet_stable d hg))
      | none =>
        rw [udpStep_miss hg] at hin
        simp only [List.mem_append] at hin
        rcases hin with hold | hnew
        · exact Or.inl hold
        · simp only [List.mem_singleton] at hnew
          subst hnew
          have hself : keyGet (udpStep st d).registry (dgramKey d) =
              some st.nextClient := by
            rw [udpStep_miss hg]
            exact keyGet_append_self st.nextClient hg
          exact Or.inr (udpRun_keyGet_stable ds _ hself)
    · exact Or.inr hlook

theorem udpRun_connect_count (ds : List Dgram) (st : UdpState) (k : UdpKey) :
    countKey (udpRun st ds).connects k =
      countKey st.connects k +
        (if k ∈ ds.map dgramKey ∧ keyGet st.registry k = none then 1 else 0) := by
  induction ds generalizing st with
  | nil => simp [udpRun]
  | cons d ds ih =>
    rw [udpRun, ih]
    by_cases hk : dgramKey d = k
    · subst hk
      cases hg : keyGet st.registry (dgramKey d) with
      | some c =>
        rw [udpStep_hit hg]
        simp [hg]
      | none =>
        rw [udpStep_miss hg]
        have hreg : keyGet (st.registry ++ [(dgramKey d, st.nextClient)])
            (dgramKey d) = some st.nextClient := keyGet_append_self _ hg
        simp [countKey, hreg, hg, List.filter_append]
    · have hcount : countKey (udpStep st d).connects k = countKey st.connects k := by
        cases hg : keyGet st.registry (dgramKey d) with
        | some c => rw [udpStep_hit hg]
        | none =>
          rw [udpStep_miss hg]
          simp [countKey, List.filter_append, hk]
      have hlook : keyGet (udpStep st d).registry k = keyGet st.registry k := by
        cases hg : keyGet st.registry (dgramKey d) with
        | some c => rw [udpStep_hit hg]
        | none =>
          rw [udpStep_miss hg]
          exact keyGet_append_ne (dgramKey d) st.nextClient hk
      rw [hcount, hlook]
      by_cases hm : k ∈ ds.map dgramKey
      · have hm2 : k ∈ (d :: ds).map dgramKey := by
          simp only [List.map_cons, List.mem_cons]
          exact Or.inr hm
        simp [hm, hm2]
      · have hm2 : k ∉ (d :: ds).map dgramKey := by
          simp only [List.map_cons, List.mem_cons]
          rintro (he | he)
          · exact hk he.symm
          · exact hm he
        simp only [hm, hm2, false_and, if_false]

/-- **C3.** UDP identity synthesis: over any inbound datagram sequence,
exactly one `connect` is emitted per distinct `(address, port)` pair (and
none for pairs that never send), and all datagrams from the same pair are
delivered to the same Client instance. -/
theorem udp_identity_synthesis (ds : List Dgram) :
    (∀ k, countKey (udpRun initUdp ds).connects k =
      if k ∈ ds.map dgramKey then 1 else 0) ∧
    (∀ e1 ∈ (udpRun initUdp ds).deliveries, ∀ e2 ∈ (udpRun initUdp ds).deliveries,
      e1.1 = e2.1 → e1.2 = e2.2) := by
  constructor
  · intro k
    have h := udpRun_connect_count ds initUdp k
    simpa [initUdp, countKey, keyGet] using h
  · intro e1 he1 e2 he2 hkeys
    have h1 := udpRun_delivery_lookup ds initUdp e1 he1
    have h2 := udpRun_delivery_lookup ds initUdp e2 he2
    rcases h1 with h1 | h1
    · simp [initUdp] at h1
    rcases h2 with h2 | h2
    · simp [initUdp] at h2
    rw [hkeys] at h1
    exact Option.some.inj (h1.symm.trans h2)

/-- Witness for C3: datagrams from `("a",1)`, `("a",1)`, `("b",2)` produce
one connect per pair and route the repeated pair to client `0` twice. -/
theorem udp_identity_synthesis_witness :
    countKey (udpRun initUdp [⟨"a", 1⟩, ⟨"a", 1⟩, ⟨"b", 2⟩]).connects ("a", 1) = 1 ∧
      ((("a", 1), 0) ∈ (udpRun initUdp [⟨"a", 1⟩, ⟨"a", 1⟩, ⟨"b", 2⟩]).deliveries ∧
        ∀ e2 ∈ (udpRun initUdp [⟨"a", 1⟩, ⟨"a", 1⟩, ⟨"b", 2⟩]).deliveries,
          (("a", 1) : UdpKey) = e2.1 → 0 = e2.2) := by
  refine ⟨?_, ?_, ?_⟩
  · have h := (udp_identity_synthesis [⟨"a", 1⟩, ⟨"a", 1⟩, ⟨"b", 2⟩]).1 ("a", 1)
    rw [h]
    decide
  · decide
  · exact (udp_identity_synthesis [⟨"a", 1⟩, ⟨"a", 1⟩, ⟨"b", 2⟩]).2
      (("a", 1), 0) (by decide)

/-! ## TcpClient socket error handling (src/tcp/tcpClient.js,
src/client/client.js)

`attachSocketHandlers` translates socket events: `data` feeds
`processRxData` (modelled above by `processRxAll`), `error` logs, emits
`error` and increments `this.error_count`, `timeout` emits `timeout`,
`end`/`close` emit `disconnect`. There is no max-error check anywhere on
this path and the Client defines no maximum error count field. -/

inductive SockEvent
  | dataEv (chunk : List Byte)
  | errorEv
  | timeoutEv
  | endEv
  | closeEv
deriving DecidableEq, Repr

inductive EmittedEv
  | errEv
  | timeoutE
  | disconnectE
  | maxErrorE
deriving DecidableEq, Repr

/-- The socket-event dispatch of `TcpClient.attachSocketHandlers`, tracking
`error_count` and the lifecycle events emitted (`message` emissions of the
`data` path are covered by `processRxAll`). -/
def tcpHandleEvent (st : Nat × List EmittedEv) (e : SockEvent) :
    Nat × List EmittedEv :=
  match e with
  | .dataEv _ => st
  | .errorEv => (st.1 + 1, st.2 ++ [.errEv])
  | .timeoutEv => (st.1, st.2 ++ [.timeoutE])
  | .endEv => (st.1, st.2 ++ [.disconnectE])
  | .closeEv => (st.1, st.2 ++ [.disconnectE])

def tcpRunEvents (st : Nat × List EmittedEv) : List SockEvent → Nat × List EmittedEv
  | [] => st
  | e :: es => tcpRunEvents (tcpHandleEvent st e) es

/-- **C9 (code evaluation).** Every socket `error` increments `error_count`,
but the TcpClient never emits `maxError`, no matter how many errors occur:
there is no maximum-error check on the TCP path (the Client's own contract
comment and the Server's `maxError` listener expect one). -/
theorem tcpClient_never_emits_maxError (events : List SockEvent) :
    (tcpRunEvents (0, []) events).1 =
      events.countP (fun e => e == SockEvent.errorEv) ∧
    EmittedEv.maxErrorE ∉ (tcpRunEvents (0, []) events).2 := by
  suffices key : ∀ (es : List SockEvent) (n : Nat) (acc : List EmittedEv),
      (tcpRunEvents (n, acc) es).1 = n + es.countP (fun e => e == SockEvent.errorEv) ∧
      (∀ x ∈ (tcpRunEvents (n, acc) es).2, x ∈ acc ∨ x ≠ EmittedEv.maxErrorE) by
    obtain ⟨h1, h2⟩ := key events 0 []
    refine ⟨by simpa using h1, ?_⟩
    intro hmem
    rcases h2 _ hmem with hacc | hne
    · simp at hacc
    · exact hne rfl
  intro es
  induction es with
  | nil =>
    intro n acc
    refine ⟨by simp [tcpRunEvents], ?_⟩
    intro x hx
    exact Or.inl hx
  | cons e es ih =>
    intro n acc
    cases e with
    | dataEv chunk =>
      obtain ⟨h1, h2⟩ := ih n acc
      refine ⟨?_, ?_⟩
      · simpa [tcpRunEvents, tcpHandleEvent, List.countP_cons] using h1
      · intro x hx
        exact h2 x (by simpa [tcpRunEvents, tcpHandleEvent] using hx)
    | errorEv =>
      obtain ⟨h1, h2⟩ := ih (n + 1) (acc ++ [.errEv])
      refine ⟨?_, ?_⟩
      · have := h1
        simp only [tcpRunEvents, tcpHandleEvent]
        rw [this]
        simp [List.countP_cons]
        omega
      · intro x hx
        rcases h2 x (by simpa [tcpRunEvents, tcpHandleEvent] using hx) with hacc | hne
        · simp only [List.mem_append, List.mem_singleton] at hacc
          rcases hacc with hl | hr
          · exact Or.inl hl
          · subst hr
            exact Or.inr (by simp)
        · exact Or.inr hne
    | timeoutEv =>
      obtain ⟨h1, h2⟩ := ih n (acc ++ [.timeoutE])
      refine ⟨?_, ?_⟩
      · simpa [tcpRunEvents, tcpHandleEvent, List.countP_cons] using h1
      · intro x hx
        rcases h2 x (by simpa [tcpRunEvents, tcpHandleEvent] using hx) with hacc | hne
        · simp only [List.mem_append, List.mem_singleton] at hacc
          rcases hacc with hl | hr
          · exact Or.inl hl
          · subst hr
            exact Or.inr (by simp)
        · exact Or.inr hne
    | endEv =>
      obtain ⟨h1, h2⟩ := ih n (acc ++ [.disconnectE])
      refine ⟨?_, ?_⟩
      · simpa [tcpRunEvents, tcpHandleEvent, List.countP_cons] using h1
      · intro x hx
        rcases h2 x (by simpa [tcpRunEvents, tcpHandleEvent] using hx) with hacc | hne
        · simp only [List.mem_append, List.mem_singleton] at hacc
          rcases hacc with hl | hr
          · exact Or.inl hl
          · subst hr
            exact Or.inr (by simp)
        · exact Or.inr hne
    | closeEv =>
      obtain ⟨h1, h2⟩ := ih n (acc ++ [.disconnectE])
      refine ⟨?_, ?_⟩
      · simpa [tcpRunEvents, tcpHandleEvent, List.countP_cons] using h1
      · intro x hx
        rcases h2 x (by simpa [tcpRunEvents, tcpHandleEvent] using hx) with hacc | hne
        · simp only [List.mem_append, List.mem_singleton] at hacc
          rcases hacc with hl | hr
          · exact Or.inl hl
          · subst hr
            exact Or.inr (by simp)
        · exact Or.inr hne

end NodeServer
